import Mathlib

/-!
Verification development for the piano wave visualiser (src/main.py).

The numeric core of the program (frequency model, triangle-wave synthesiser,
chord normalisation, octave handler, held-note set) is embedded shallowly:
Python floats become exact rationals, numpy arrays become lists of rationals,
numpy floor is the mathematical floor, and fallible operations (out-of-range
list indexing, numpy reductions over empty arrays, int() parsing) return
Option.
-/

namespace WaveVis

/-- Embedding of PianoGUI.base_frequencies: the twelve octave-0 base
frequencies, C0 through B0, as exact decimals. -/
def base_frequencies : List ℚ :=
  [16.35, 17.32, 18.35, 19.45, 20.60, 21.83, 23.12, 24.50, 25.96, 27.50, 29.14, 30.87]

/-- Embedding of PianoGUI.get_frequency: base_frequencies[note_index] * 2 ** octave.
Indexing a Python list out of range raises, hence the Option. -/
def get_frequency (octave : ℕ) (note_index : ℕ) : Option ℚ :=
  (base_frequencies.get? note_index).map (fun base_freq => base_freq * 2 ^ octave)

/-- Embedding of PianoGUI.get_note_frequency: decompose the global note index
into note_in_octave = note_index % 12 and octave_offset = note_index // 12 and
return get_frequency(note_in_octave) * 2 ** octave_offset. -/
def get_note_frequency (octave : ℕ) (note_index : ℕ) : Option ℚ :=
  (get_frequency octave (note_index % 12)).map
    (fun base_frequency => base_frequency * 2 ^ (note_index / 12))

/-- One sample of PianoGUI.triangle_wave: phase = t * frequency, then
2 * abs(2 * (phase - floor(phase + 0.5))) - 1.  numpy floor rounds toward
negative infinity, which is the mathematical floor. -/
def triangle_sample (frequency t : ℚ) : ℚ :=
  2 * |2 * (t * frequency - (⌊t * frequency + 0.5⌋ : ℤ))| - 1

/-- Embedding of PianoGUI.triangle_wave: the sample formula applied pointwise
to the time axis (numpy broadcasts the scalar operations over the array t). -/
def triangle_wave (frequency : ℚ) (t : List ℚ) : List ℚ :=
  t.map (triangle_sample frequency)

/-- Embedding of PianoGUI.__init__: self.fs = 44100. -/
def fs : ℚ := 44100

/-- Embedding of PianoGUI.__init__: self.duration = 0.05. -/
def duration : ℚ := 0.05

/-- Python int() applied to a float truncates toward zero. -/
def truncInt (q : ℚ) : ℤ :=
  if 0 ≤ q then ⌊q⌋ else ⌈q⌉

/-- Sample count used by PianoGUI.__init__: int(self.fs * self.duration). -/
def num_samples : ℕ :=
  (truncInt (fs * duration)).toNat

/-- Embedding of np.linspace(a, b, n) with the default endpoint=True:
n evenly spaced values, the i-th being a + (b - a) * i / (n - 1).
For n = 1 numpy returns [a]; rational division by zero returns 0, so the
formula covers that case as well. -/
def linspace (a b : ℚ) (n : ℕ) : List ℚ :=
  (List.range n).map (fun (i : ℕ) => a + (b - a) * (i : ℚ) / ((n : ℚ) - 1))

/-- Embedding of PianoGUI.__init__: self.t = np.linspace(0, duration, int(fs * duration)). -/
def time_axis : List ℚ :=
  linspace 0 duration num_samples

/-- Embedding of PianoGUI.generate_wave: triangle_wave(frequency, self.t). -/
def generate_wave (frequency : ℚ) : List ℚ :=
  triangle_wave frequency time_axis

/-- Embedding of np.max over a one-dimensional array: the left fold of max
over the elements; on an empty array numpy raises ValueError, hence none. -/
def npMax : List ℚ → Option ℚ
  | [] => none
  | x :: xs => some (xs.foldl max x)

/-- The accumulation loop of PianoGUI.generate_chord_wave: starting from
np.zeros_like(t), add triangle_wave(freq, t) elementwise for each freq. -/
def sumWaves (frequencies t : List ℚ) : List ℚ :=
  frequencies.foldl
    (fun wave freq => List.zipWith (fun a b => a + b) wave (triangle_wave freq t))
    (t.map (fun _ => 0))

/-- Embedding of PianoGUI.generate_chord_wave: all zeros for an empty
frequency list; otherwise sum the triangle waves and, when
np.max(np.abs(wave)) > 0, divide by that maximum.  The reduction np.max
raises on an empty array, in which case the call fails (none). -/
def generate_chord_wave (frequencies t : List ℚ) : Option (List ℚ) :=
  if frequencies = [] then some (t.map (fun _ => 0))
  else
    match npMax ((sumWaves frequencies t).map (fun x => |x|)) with
    | none => none
    | some m =>
      some (if 0 < m then (sumWaves frequencies t).map (fun x => x / m)
            else sumWaves frequencies t)

/-- Embedding of PianoGUI.on_octave_change.  The state it touches is the
stored octave (self.octave) and the entry text (self.octave_var); parsed is
the result of Python int() on the entry text, supplied as an argument since
int() is library behaviour, with ValueError modelled as none.  Returns the
new (octave, entry text) pair: on a parse failure or an out-of-range value
the octave is kept and the entry reset to str(octave); on an in-range value
the octave is updated and the entry text left as typed. -/
def on_octave_change (octave : ℤ) (entry : String) (parsed : Option ℤ) : ℤ × String :=
  match parsed with
  | none => (octave, toString octave)
  | some new_octave =>
    if 0 ≤ new_octave ∧ new_octave ≤ 8 then (new_octave, entry)
    else (octave, toString octave)

/-- Embedding of PianoGUI.release_note restricted to the held_notes state:
scan the held set for the first pair whose index matches and remove it.
The set is modelled as a list of distinct pairs in iteration order; the
button-colour bookkeeping does not touch held_notes and is omitted. -/
def release_note (held : List (ℕ × String)) (note_index : ℕ) : List (ℕ × String) :=
  match held.find? (fun p => p.1 == note_index) with
  | some note_to_remove => held.erase note_to_remove
  | none => held

/-- Embedding of PianoGUI.hold_note_right_click restricted to the held_notes
state: if the exact (index, name) pair is held, release that index, otherwise
add the pair. -/
def hold_note_right_click (held : List (ℕ × String)) (note_index : ℕ) (note_name : String) :
    List (ℕ × String) :=
  if (note_index, note_name) ∈ held then release_note held note_index
  else (note_index, note_name) :: held

/-- User events that mutate held_notes.  A hold event carries the display
name currently bound to the key, which update_piano_labels rebinds on every
octave change, so successive events for one key may carry different names. -/
inductive PianoEvent : Type
  | hold (idx : ℕ) (name : String) : PianoEvent
  | release (idx : ℕ) : PianoEvent

/-- Apply one event to the held-note set. -/
def stepEvent (held : List (ℕ × String)) : PianoEvent → List (ℕ × String)
  | PianoEvent.hold idx name => hold_note_right_click held idx name
  | PianoEvent.release idx => release_note held idx

/-- Run a sequence of events from the empty held-note set of PianoGUI.__init__. -/
def runEvents (events : List PianoEvent) : List (ℕ × String) :=
  events.foldl stepEvent []

/-! ### Helper lemmas -/

lemma triangle_sample_abs_le (f t : ℚ) :
    |2 * (t * f - (⌊t * f + 0.5⌋ : ℤ))| ≤ 1 := by
  have h1 : (⌊t * f + 0.5⌋ : ℚ) ≤ t * f + 0.5 := Int.floor_le _
  have h2 : t * f + 0.5 < (⌊t * f + 0.5⌋ : ℚ) + 1 := Int.lt_floor_add_one _
  rw [abs_le]
  constructor <;> [linarith; linarith]

lemma triangle_sample_le_one (f t : ℚ) : triangle_sample f t ≤ 1 := by
  have h := triangle_sample_abs_le f t
  unfold triangle_sample
  linarith

lemma neg_one_le_triangle_sample (f t : ℚ) : -1 ≤ triangle_sample f t := by
  have h : 0 ≤ |2 * (t * f - (⌊t * f + 0.5⌋ : ℤ))| := abs_nonneg _
  unfold triangle_sample
  linarith

lemma triangle_sample_zero (f : ℚ) : triangle_sample f 0 = -1 := by
  unfold triangle_sample
  norm_num

lemma triangle_sample_add_period (f t : ℚ) (hf : f ≠ 0) :
    triangle_sample f (t + 1 / f) = triangle_sample f t := by
  unfold triangle_sample
  have hphase : (t + 1 / f) * f = t * f + 1 := by
    field_simp
  rw [hphase]
  have hfloor : (⌊t * f + 1 + 0.5⌋ : ℤ) = ⌊t * f + 0.5⌋ + 1 := by
    have : t * f + 1 + 0.5 = t * f + 0.5 + (1 : ℤ) := by push_cast; ring
    rw [this, Int.floor_add_int]
  rw [hfloor]
  push_cast
  ring_nf

/-! ### C1: triangle_wave computes the documented sample formula pointwise -/

/-- C1: for every frequency f and time axis t, triangle_wave(f, t) has the
same length as t and its i-th element is 2*abs(2*(p - floor(p + 0.5))) - 1
with p = t[i] * f, floor rounding toward negative infinity. -/
theorem triangle_wave_pointwise (f : ℚ) (t : List ℚ) (i : ℕ) (h : i < t.length) :
    (triangle_wave f t).length = t.length ∧
    (triangle_wave f t).get? i =
      some (2 * |2 * (t.get ⟨i, h⟩ * f - (⌊t.get ⟨i, h⟩ * f + 0.5⌋ : ℤ))| - 1) := by
  refine ⟨List.length_map _ _, ?_⟩
  rw [triangle_wave, List.get?_map, List.get?_eq_get h]
  rfl

/-- Witness for C1 at f = 2, t = [0, 3/8], i = 1. -/
theorem triangle_wave_pointwise_witness :
    (triangle_wave 2 [0, (3 : ℚ)/8]).length = [0, (3 : ℚ)/8].length ∧
    (triangle_wave 2 [0, (3 : ℚ)/8]).get? 1 =
      some (2 * |2 * ((3 : ℚ)/8 * 2 - (⌊(3 : ℚ)/8 * 2 + 0.5⌋ : ℤ))| - 1) :=
  triangle_wave_pointwise 2 [0, (3 : ℚ)/8] 1 (by norm_num)

/-! ### C4: triangle samples stay in [-1, 1] and start at -1 -/

/-- C4: for every frequency f > 0 and time value t, the triangle-wave sample
lies in [-1, 1], and the wave evaluated on the time axis [0] is [-1]. -/
theorem triangle_wave_range (f : ℚ) (hf : 0 < f) (t : ℚ) :
    -1 ≤ triangle_sample f t ∧ triangle_sample f t ≤ 1 ∧
    triangle_wave f [0] = [-1] := by
  refine ⟨neg_one_le_triangle_sample f t, triangle_sample_le_one f t, ?_⟩
  show [triangle_sample f 0] = [-1]
  rw [triangle_sample_zero]

/-- Witness for C4 at f = 3, t = 5/7. -/
theorem triangle_wave_range_witness :
    -1 ≤ triangle_sample 3 (5/7) ∧ triangle_sample 3 (5/7) ≤ 1 ∧
    triangle_wave 3 [0] = [-1] :=
  triangle_wave_range 3 (by norm_num) (5/7)

/-! ### C7: periodicity with period 1/f -/

/-- C7: for every frequency f > 0 the triangle wave is periodic with period
1/f: shifting every time value by 1/f leaves the generated wave unchanged. -/
theorem triangle_wave_periodic (f : ℚ) (hf : 0 < f) (ts : List ℚ) :
    triangle_wave f (ts.map (fun t => t + 1 / f)) = triangle_wave f ts := by
  unfold triangle_wave
  rw [List.map_map]
  exact List.map_congr_left (fun t _ => triangle_sample_add_period f t (ne_of_gt hf))

/-- Witness for C7 at f = 2, ts = [0, 1/3]. -/
theorem triangle_wave_periodic_witness :
    triangle_wave 2 ([0, (1 : ℚ)/3].map (fun t => t + 1 / 2)) =
      triangle_wave 2 [0, (1 : ℚ)/3] :=
  triangle_wave_periodic 2 (by norm_num) [0, (1 : ℚ)/3]

/-! ### C6: chord wave of no frequencies is all zero -/

/-- C6: for every time axis t, generate_chord_wave applied to the empty
frequency list returns an all-zero buffer of the same length as t. -/
theorem generate_chord_wave_nil (t : List ℚ) :
    ∃ w, generate_chord_wave [] t = some w ∧ w.length = t.length ∧
      ∀ x ∈ w, x = 0 := by
  refine ⟨t.map (fun _ => 0), rfl, List.length_map _ _, ?_⟩
  intro x hx
  rcases List.mem_map.mp hx with ⟨_, _, rfl⟩
  rfl

/-! ### Helper lemmas about sums of waves and the np.max reduction -/

lemma zipWith_add_map (g h : ℚ → ℚ) (t : List ℚ) :
    List.zipWith (fun a b => a + b) (t.map g) (t.map h) = t.map (fun x => g x + h x) := by
  rw [List.zipWith_map, List.zipWith_same]

lemma sumWaves_loop (fsq t : List ℚ) (g : ℚ → ℚ) :
    fsq.foldl (fun wave freq => List.zipWith (fun a b => a + b) wave (triangle_wave freq t))
      (t.map g)
    = t.map (fun x => g x + (fsq.map (fun f => triangle_sample f x)).sum) := by
  induction fsq generalizing g with
  | nil => simp
  | cons f fsq ih =>
    rw [List.foldl_cons, show triangle_wave f t = t.map (triangle_sample f) from rfl,
      zipWith_add_map, ih (fun x => g x + triangle_sample f x)]
    apply List.map_congr_left
    intro x _
    simp [add_assoc]

/-- The accumulation loop of generate_chord_wave computes the pointwise sum
of the individual triangle waves. -/
lemma sumWaves_eq_map (fsq t : List ℚ) :
    sumWaves fsq t = t.map (fun x => (fsq.map (fun f => triangle_sample f x)).sum) := by
  rw [sumWaves, sumWaves_loop fsq t (fun _ => 0)]
  simp

lemma le_foldl_max (xs : List ℚ) (a : ℚ) : a ≤ xs.foldl max a := by
  induction xs generalizing a with
  | nil => exact le_refl a
  | cons x xs ih => exact le_trans (le_max_left a x) (ih (max a x))

lemma foldl_max_le_of_mem (xs : List ℚ) (a x : ℚ) (hx : x ∈ xs) : x ≤ xs.foldl max a := by
  induction xs generalizing a with
  | nil => cases hx
  | cons y ys ih =>
    rcases List.mem_cons.mp hx with rfl | hmem
    · exact le_trans (le_max_right a x) (le_foldl_max ys (max a x))
    · exact ih (max a y) hmem

lemma foldl_max_mem (xs : List ℚ) (a : ℚ) : xs.foldl max a = a ∨ xs.foldl max a ∈ xs := by
  induction xs generalizing a with
  | nil => exact Or.inl rfl
  | cons y ys ih =>
    rcases ih (max a y) with h | h
    · rcases max_choice a y with hm | hm
      · exact Or.inl (by rw [List.foldl_cons, h, hm])
      · exact Or.inr (by rw [List.foldl_cons, h, hm]; exact List.mem_cons_self y ys)
    · exact Or.inr (List.mem_cons_of_mem y h)

lemma foldl_max_le (xs : List ℚ) (a c : ℚ) (ha : a ≤ c) (h : ∀ x ∈ xs, x ≤ c) :
    xs.foldl max a ≤ c := by
  induction xs generalizing a with
  | nil => exact ha
  | cons y ys ih =>
    exact ih (max a y) (max_le ha (h y (List.mem_cons_self y ys)))
      (fun x hx => h x (List.mem_cons_of_mem y hx))

lemma npMax_isSome (l : List ℚ) (hl : l ≠ []) : ∃ m, npMax l = some m := by
  match l with
  | [] => exact absurd rfl hl
  | x :: xs => exact ⟨xs.foldl max x, rfl⟩

lemma npMax_eq_some (l : List ℚ) (m : ℚ) (h : npMax l = some m) :
    m ∈ l ∧ ∀ x ∈ l, x ≤ m := by
  match l with
  | [] => exact Option.noConfusion h
  | x :: xs =>
    have hm : xs.foldl max x = m := Option.some.inj h
    subst hm
    refine ⟨?_, ?_⟩
    · rcases foldl_max_mem xs x with h1 | h1
      · rw [h1]; exact List.mem_cons_self x xs
      · exact List.mem_cons_of_mem x h1
    · intro y hy
      rcases List.mem_cons.mp hy with rfl | hmem
      · exact le_foldl_max xs y
      · exact foldl_max_le_of_mem xs x y hmem

lemma npMax_eq_of (l : List ℚ) (c : ℚ) (hc : c ∈ l) (hall : ∀ x ∈ l, x ≤ c) :
    npMax l = some c := by
  match l with
  | [] => cases hc
  | x :: xs =>
    show some (xs.foldl max x) = some c
    congr 1
    apply le_antisymm
    · exact foldl_max_le xs x c (hall x (List.mem_cons_self x xs))
        (fun y hy => hall y (List.mem_cons_of_mem x hy))
    · rcases List.mem_cons.mp hc with rfl | hmem
      · exact le_foldl_max xs c
      · exact foldl_max_le_of_mem xs x c hmem

/-- Dividing a buffer by its positive peak absolute value yields a buffer
whose peak absolute value is exactly 1. -/
lemma npMax_abs_normalized (w : List ℚ) (m : ℚ) (hm : 0 < m)
    (hmax : npMax (w.map (fun x => |x|)) = some m) :
    npMax ((w.map (fun x => x / m)).map (fun x => |x|)) = some 1 := by
  obtain ⟨hmem, hall⟩ := npMax_eq_some _ m hmax
  have hlist : (w.map (fun x => x / m)).map (fun x => |x|)
      = w.map (fun x => |x| / m) := by
    rw [List.map_map]
    apply List.map_congr_left
    intro x _
    simp [Function.comp, abs_div, abs_of_pos hm]
  rw [hlist]
  obtain ⟨y, hy, hym⟩ := List.mem_map.mp hmem
  apply npMax_eq_of
  · exact List.mem_map.mpr ⟨y, hy, by rw [hym, div_self (ne_of_gt hm)]⟩
  · intro z hz
    obtain ⟨x, hx, rfl⟩ := List.mem_map.mp hz
    exact (div_le_one hm).mpr (hall |x| (List.mem_map.mpr ⟨x, hx, rfl⟩))

/-! ### C2: global note index decomposition -/

/-- C2: for every non-negative global note index g and octave o in [0,8],
get_note_frequency(g) is base_frequencies[g mod 12] * 2^o * 2^(g div 12);
for g in [0,11] it is get_frequency(g), and for g in [12,23] it is
get_frequency(g-12) doubled. -/
theorem get_note_frequency_spec (g o : ℕ) (ho : o ≤ 8) :
    get_note_frequency o g =
      some (base_frequencies.getD (g % 12) 0 * 2 ^ o * 2 ^ (g / 12)) ∧
    (g ≤ 11 → get_note_frequency o g = get_frequency o g) ∧
    (12 ≤ g → g ≤ 23 →
      get_note_frequency o g = (get_frequency o (g - 12)).map (fun x => x * 2)) := by
  have hlt : g % 12 < base_frequencies.length := by
    have : g % 12 < 12 := Nat.mod_lt g (by norm_num)
    simpa [base_frequencies] using this
  refine ⟨?_, ?_, ?_⟩
  · rw [get_note_frequency, get_frequency, List.get?_eq_get hlt,
      List.getD_eq_get? , List.get?_eq_get hlt]
    simp [mul_assoc]
  · intro hg
    have h1 : g % 12 = g := Nat.mod_eq_of_lt (by omega)
    have h2 : g / 12 = 0 := Nat.div_eq_of_lt (by omega)
    rw [get_note_frequency, h1, h2]
    cases get_frequency o g with
    | none => rfl
    | some x => simp
  · intro h12 h23
    have h1 : g % 12 = g - 12 := by omega
    have h2 : g / 12 = 1 := by omega
    rw [get_note_frequency, h1, h2]
    cases get_frequency o (g - 12) with
    | none => rfl
    | some x => simp

/-- Witness for C2 at g = 13, o = 4. -/
theorem get_note_frequency_spec_witness :
    get_note_frequency 4 13 =
      some (base_frequencies.getD (13 % 12) 0 * 2 ^ 4 * 2 ^ (13 / 12)) ∧
    (13 ≤ 11 → get_note_frequency 4 13 = get_frequency 4 13) ∧
    (12 ≤ 13 → 13 ≤ 23 →
      get_note_frequency 4 13 = (get_frequency 4 (13 - 12)).map (fun x => x * 2)) :=
  get_note_frequency_spec 13 4 (by norm_num)

/-! ### C8: octave entry validation -/

/-- C8: when the entry text fails to parse as an integer, or parses to an
integer outside [0,8], on_octave_change keeps the stored octave and reverts
the entry text to it; when it parses to an integer in [0,8], the stored
octave becomes that value and the entry text is untouched. -/
theorem on_octave_change_spec (octave : ℤ) (entry : String) (parsed : Option ℤ) :
    ((parsed = none ∨ ∃ n, parsed = some n ∧ (n < 0 ∨ 8 < n)) →
      on_octave_change octave entry parsed = (octave, toString octave)) ∧
    (∀ n, parsed = some n → 0 ≤ n → n ≤ 8 →
      on_octave_change octave entry parsed = (n, entry)) := by
  constructor
  · rintro (rfl | ⟨n, rfl, hn⟩)
    · rfl
    · show (if 0 ≤ n ∧ n ≤ 8 then ((n, entry) : ℤ × String)
            else (octave, toString octave)) = (octave, toString octave)
      rw [if_neg (by omega)]
  · rintro n rfl h0 h8
    show (if 0 ≤ n ∧ n ≤ 8 then ((n, entry) : ℤ × String)
          else (octave, toString octave)) = (n, entry)
    rw [if_pos ⟨h0, h8⟩]

/-- Witness for C8: entry 9 is rejected and reverted, entry 7 is accepted. -/
theorem on_octave_change_spec_witness :
    on_octave_change 4 "9" (some 9) = (4, toString (4 : ℤ)) ∧
    on_octave_change 4 "7" (some 7) = (7, "7") :=
  ⟨(on_octave_change_spec 4 "9" (some 9)).1 (Or.inr ⟨9, rfl, Or.inr (by norm_num)⟩),
   (on_octave_change_spec 4 "7" (some 7)).2 7 rfl (by norm_num) (by norm_num)⟩

/-! ### C3: chord wave normalization -/

/-- Counterexample to C3 as stated: on an empty time axis with a non-empty
frequency list nothing is returned, because np.max raises on an empty array;
the claim promises the all-zero (here empty) sum back instead. -/
theorem generate_chord_wave_empty_axis :
    generate_chord_wave [1] [] = none := rfl

/-- C3 amended: for every non-empty frequency list and every non-empty time
axis, generate_chord_wave returns the element-wise sum of the triangle waves,
divided by the maximum absolute sample of that sum whenever that maximum is
positive (making the peak absolute amplitude of the result exactly 1), and
returns the all-zero sum unnormalized when the sum is identically zero. -/
theorem generate_chord_wave_spec (fsq t : List ℚ) (hf : fsq ≠ []) (ht : t ≠ []) :
    sumWaves fsq t = t.map (fun x => (fsq.map (fun f => triangle_sample f x)).sum) ∧
    ∃ m, npMax ((sumWaves fsq t).map (fun x => |x|)) = some m ∧ 0 ≤ m ∧
      (0 < m →
        generate_chord_wave fsq t = some ((sumWaves fsq t).map (fun x => x / m)) ∧
        npMax (((sumWaves fsq t).map (fun x => x / m)).map (fun x => |x|)) = some 1) ∧
      (m = 0 →
        generate_chord_wave fsq t = some (sumWaves fsq t) ∧
        ∀ x ∈ sumWaves fsq t, x = 0) := by
  have habs : (sumWaves fsq t).map (fun x => |x|) ≠ [] := by
    rw [sumWaves_eq_map, List.map_map]
    simpa using ht
  obtain ⟨m, hm⟩ := npMax_isSome _ habs
  obtain ⟨hmem, hall⟩ := npMax_eq_some _ m hm
  obtain ⟨y, _, hym⟩ := List.mem_map.mp hmem
  refine ⟨sumWaves_eq_map fsq t, m, hm, hym ▸ abs_nonneg y, ?_, ?_⟩
  · intro hpos
    refine ⟨?_, npMax_abs_normalized _ m hpos hm⟩
    rw [generate_chord_wave, if_neg hf, hm]
    show some (if 0 < m then (sumWaves fsq t).map (fun x => x / m) else sumWaves fsq t)
        = some ((sumWaves fsq t).map (fun x => x / m))
    rw [if_pos hpos]
  · rintro rfl
    constructor
    · rw [generate_chord_wave, if_neg hf, hm]
      show some (if (0 : ℚ) < 0 then (sumWaves fsq t).map (fun x => x / 0) else sumWaves fsq t)
          = some (sumWaves fsq t)
      rw [if_neg (lt_irrefl 0)]
    · intro x hx
      have hx0 : |x| ≤ 0 := hall |x| (List.mem_map.mpr ⟨x, hx, rfl⟩)
      exact abs_eq_zero.mp (le_antisymm hx0 (abs_nonneg x))

/-- Witness for C3 amended at frequencies [1] and time axis [0]. -/
theorem generate_chord_wave_spec_witness :
    sumWaves [1] [0] =
      [(0 : ℚ)].map (fun x => (([1] : List ℚ).map (fun f => triangle_sample f x)).sum) ∧
    ∃ m, npMax ((sumWaves [1] [0]).map (fun x => |x|)) = some m ∧ 0 ≤ m ∧
      (0 < m →
        generate_chord_wave [1] [0] = some ((sumWaves [1] [0]).map (fun x => x / m)) ∧
        npMax (((sumWaves [1] [0]).map (fun x => x / m)).map (fun x => |x|)) = some 1) ∧
      (m = 0 →
        generate_chord_wave [1] [0] = some (sumWaves [1] [0]) ∧
        ∀ x ∈ sumWaves [1] [0], x = 0) :=
  generate_chord_wave_spec [1] [0] (List.cons_ne_nil 1 []) (List.cons_ne_nil 0 [])

/-! ### C5: uniqueness of the held-note set per global index fails -/

/-- C5 fails on the code: holding a key, changing the octave (which rebinds
the key to a new display name), and holding the same key again leaves two
pairs with global index 0 in the held-note set, because the toggle check
compares the full (index, name) pair. -/
theorem held_notes_duplicate_index :
    (0, "C4") ∈ runEvents [PianoEvent.hold 0 "C4", PianoEvent.hold 0 "C5"] ∧
    (0, "C5") ∈ runEvents [PianoEvent.hold 0 "C4", PianoEvent.hold 0 "C5"] ∧
    (runEvents [PianoEvent.hold 0 "C4", PianoEvent.hold 0 "C5"]).countP
      (fun p => p.1 == 0) = 2 := by
  decide

/-! ### Helper lemmas about the program's fixed time axis -/

lemma num_samples_eq : num_samples = 2205 := by
  have h : fs * duration = (2205 : ℤ) := by
    rw [fs, duration]
    norm_num
  rw [num_samples, truncInt, h, if_pos (by norm_num), Int.floor_intCast]
  rfl

lemma time_axis_length : time_axis.length = 2205 := by
  rw [time_axis, linspace, List.length_map, List.length_range, num_samples_eq]

lemma time_axis_head : time_axis.get? 0 = some 0 := by
  rw [time_axis, linspace, List.get?_map,
    List.get?_range (show 0 < num_samples by rw [num_samples_eq]; norm_num)]
  rw [Option.map_some']
  norm_num

lemma sum_map_neg_one (l : List ℚ) : (l.map (fun _ => (-1 : ℚ))).sum = -(l.length : ℚ) := by
  induction l with
  | nil => simp
  | cons x xs ih =>
    rw [List.map_cons, List.sum_cons, ih, List.length_cons]
    push_cast
    ring

/-! ### C9: end-to-end middle C scenario -/

/-- C9: at octave 4, global note index 0 resolves to 16.35 * 2^4 = 261.6 Hz;
the time axis and the synthesized buffer have int(44100 * 0.05) = 2205
samples; and the first sample of the synthesized wave is -1. -/
theorem end_to_end_middle_c :
    get_note_frequency 4 0 = some 261.6 ∧
    (261.6 : ℚ) = 16.35 * 2 ^ 4 ∧
    num_samples = 2205 ∧
    time_axis.length = 2205 ∧
    (generate_wave 261.6).length = 2205 ∧
    (generate_wave 261.6).get? 0 = some (-1) := by
  refine ⟨?_, by norm_num, num_samples_eq, time_axis_length, ?_, ?_⟩
  · rw [get_note_frequency, get_frequency]
    norm_num [base_frequencies, List.get?]
  · rw [generate_wave, triangle_wave, List.length_map, time_axis_length]
  · rw [generate_wave, triangle_wave, List.get?_map, time_axis_head]
    rw [Option.map_some', triangle_sample_zero]

/-! ### C10: the zero-sum branch is unreachable on the real time axis -/

/-- C10: on the program's time axis (first element 0, where every triangle
sample is -1), the unnormalized sum over a non-empty frequency list starts at
minus the number of frequencies, its maximum absolute value is positive, the
normalization branch is taken, and the result's peak absolute amplitude is
exactly 1. -/
theorem chord_normalization_on_time_axis (fsq : List ℚ) (hf : fsq ≠ []) :
    (sumWaves fsq time_axis).get? 0 = some (-(fsq.length : ℚ)) ∧
    ∃ m, npMax ((sumWaves fsq time_axis).map (fun x => |x|)) = some m ∧ 0 < m ∧
      generate_chord_wave fsq time_axis =
        some ((sumWaves fsq time_axis).map (fun x => x / m)) ∧
      npMax (((sumWaves fsq time_axis).map (fun x => x / m)).map (fun x => |x|))
        = some 1 := by
  have hget : (sumWaves fsq time_axis).get? 0 = some (-(fsq.length : ℚ)) := by
    rw [sumWaves_eq_map, List.get?_map, time_axis_head, Option.map_some']
    congr 1
    show (fsq.map (fun f => triangle_sample f 0)).sum = -(fsq.length : ℚ)
    rw [List.map_congr_left (fun f _ => triangle_sample_zero f), sum_map_neg_one]
  have hne : time_axis ≠ [] := by
    intro h
    have hlen := time_axis_length
    rw [h] at hlen
    exact absurd hlen (by norm_num)
  have habs : (sumWaves fsq time_axis).map (fun x => |x|) ≠ [] := by
    rw [sumWaves_eq_map, List.map_map]
    simpa using hne
  obtain ⟨m, hm⟩ := npMax_isSome _ habs
  obtain ⟨hmem, hall⟩ := npMax_eq_some _ m hm
  have hwmem : -(fsq.length : ℚ) ∈ sumWaves fsq time_axis := List.get?_mem hget
  have hb : |(-(fsq.length : ℚ))| ≤ m := hall _ (List.mem_map.mpr ⟨_, hwmem, rfl⟩)
  have habs2 : |(-(fsq.length : ℚ))| = (fsq.length : ℚ) := by
    rw [abs_neg, abs_of_nonneg (by positivity)]
  have hlen1 : (1 : ℚ) ≤ (fsq.length : ℚ) := by
    exact_mod_cast List.length_pos.mpr hf
  have hpos : 0 < m := by
    rw [habs2] at hb
    linarith
  refine ⟨hget, m, hm, hpos, ?_, npMax_abs_normalized _ m hpos hm⟩
  rw [generate_chord_wave, if_neg hf, hm]
  show some (if 0 < m then (sumWaves fsq time_axis).map (fun x => x / m)
             else sumWaves fsq time_axis)
      = some ((sumWaves fsq time_axis).map (fun x => x / m))
  rw [if_pos hpos]

/-- Witness for C10 at the singleton frequency list [1]. -/
theorem chord_normalization_on_time_axis_witness :
    (sumWaves [1] time_axis).get? 0 = some (-((([1] : List ℚ).length : ℚ))) ∧
    ∃ m, npMax ((sumWaves [1] time_axis).map (fun x => |x|)) = some m ∧ 0 < m ∧
      generate_chord_wave [1] time_axis =
        some ((sumWaves [1] time_axis).map (fun x => x / m)) ∧
      npMax (((sumWaves [1] time_axis).map (fun x => x / m)).map (fun x => |x|))
        = some 1 :=
  chord_normalization_on_time_axis [1] (List.cons_ne_nil 1 [])

end WaveVis
